import Mathlib

/-!
# SHA peripheral driver (`drivers/peripherals/sha.c`)

A shallow embedding of the SHA driver of the SAM software package, and
theorems about it.

* Machine words are natural numbers; 32-bit and 8-bit truncation is written
  `% 2 ^ 32` and `% 256` where the C code stores into a narrower type or
  computes in `uint32_t`.
* The peripheral `SHA` is a record of its registers; the two data banks
  `SHA_IDATAR[16]` and `SHA_IODATAR[16]` and every `uint32_t *` argument are
  maps from an index to a word, so that an access past the sixteenth word of
  a bank is visible as an index `≥ 16`.
* A counted `for` loop whose body is a single store `dst[i] = v i` is the list
  of its stores in program order, applied to `dst` by `storeAll`.
* The constants of `sha.h`, `dma.h` and the chip's `component_sha.h` are not
  part of the translated sources: the register-field constants and DMA chunk
  constants are parameters (`ShaHeader`, `DmaHeader`), the mode enumeration
  and digest sizes follow the documentation.
-/

namespace ShaDriver

/-! ## Constants of the absent headers -/

/-- Modelled from the spec: the enumeration of algorithm modes of `sha.h`,
`{SHA1, SHA256, SHA384, SHA512, SHA224}` in table order, first member `0`. -/
def SHA_MODE_SHA1 : Nat := 0

/-- Modelled from the spec: second algorithm mode of `sha.h`. -/
def SHA_MODE_SHA256 : Nat := 1

/-- Modelled from the spec: third algorithm mode of `sha.h`. -/
def SHA_MODE_SHA384 : Nat := 2

/-- Modelled from the spec: fourth algorithm mode of `sha.h`. -/
def SHA_MODE_SHA512 : Nat := 3

/-- Modelled from the spec: fifth algorithm mode of `sha.h`. -/
def SHA_MODE_SHA224 : Nat := 4

/-- Modelled from the spec: the number of algorithm modes of `sha.h`, the
enumerator that follows the five modes. -/
def SHA_MODE_COUNT : Nat := 5

/-- Modelled from the spec: `SHA_1_DIGEST_SIZE` of `sha.h`, the digest length
in bits (the driver divides it by 32 to get words; "N is 160 for SHA1"). -/
def SHA_1_DIGEST_SIZE : Nat := 160

/-- Modelled from the spec: `SHA_256_DIGEST_SIZE` of `sha.h`, in bits. -/
def SHA_256_DIGEST_SIZE : Nat := 256

/-- Modelled from the spec: `SHA_384_DIGEST_SIZE` of `sha.h`, in bits. -/
def SHA_384_DIGEST_SIZE : Nat := 384

/-- Modelled from the spec: `SHA_512_DIGEST_SIZE` of `sha.h`, in bits. -/
def SHA_512_DIGEST_SIZE : Nat := 512

/-- Modelled from the spec: `SHA_224_DIGEST_SIZE` of `sha.h`, in bits. -/
def SHA_224_DIGEST_SIZE : Nat := 224

/-- The digest bit lengths the driver documents for the five modes, in mode
order (sha.c, file comment: 160 for SHA1, 256 for SHA256, 384 for SHA384,
512 for SHA512, 224 for SHA224). -/
def documented_digest_bits : List Nat := [160, 256, 384, 512, 224]

/-- The register-field constants of the chip's `component_sha.h` that the
driver uses. `SHA_MR_ALGO_HMAC_SHA1` is `none` on a chip whose header does
not define the macro (the `#ifdef` of `sha_get_output`). -/
structure ShaHeader where
  SHA_CR_START : Nat
  SHA_CR_FIRST : Nat
  SHA_CR_SWRST : Nat
  SHA_MR_ALGO_Pos : Nat
  SHA_MR_ALGO_Msk : Nat
  SHA_MR_ALGO_SHA1 : Nat
  SHA_MR_ALGO_HMAC_SHA1 : Option Nat

/-- The two DMA chunk-size constants of `peripherals/dma.h` used by the
driver's table. -/
structure DmaHeader where
  DMA_CHUNK_SIZE_16 : Nat
  DMA_CHUNK_SIZE_32 : Nat

/-- The build-time chip selection tested by `#if defined(CONFIG_SOC_...)`. -/
inductive Soc where
  | CONFIG_SOC_SAMA5D3
  | CONFIG_SOC_SAMA5D2
  | CONFIG_SOC_SAMA5D4
  deriving DecidableEq, Repr

/-! ## Peripheral state -/

/-- The registers of the `SHA` peripheral that the driver accesses. -/
structure Sha where
  SHA_CR : Nat
  SHA_MR : Nat
  SHA_IER : Nat
  SHA_IDR : Nat
  SHA_ISR : Nat
  SHA_IDATAR : Nat → Nat
  SHA_IODATAR : Nat → Nat

/-- Apply a sequence of stores `(index, value)` to a word array, first store
first. -/
def storeAll (mem : Nat → Nat) (stores : List (Nat × Nat)) : Nat → Nat :=
  stores.foldl (fun m w => Function.update m w.1 w.2) mem

/-- The stores of `for (i = 0; i < num; i++) dst[i] = src i;`. -/
def for_stores (num : Nat) (src : Nat → Nat) : List (Nat × Nat) :=
  (List.range num).map fun i => (i, src i)

/-! ## Lookup tables (sha.c lines 83-107) -/

/-- The table `_sha_dma_chunk_size` (`uint8_t[]`), selected by the chip. -/
def _sha_dma_chunk_size (soc : Soc) (d : DmaHeader) : List Nat :=
  match soc with
  | .CONFIG_SOC_SAMA5D3 =>
    [d.DMA_CHUNK_SIZE_16 % 256, d.DMA_CHUNK_SIZE_16 % 256, d.DMA_CHUNK_SIZE_32 % 256,
     d.DMA_CHUNK_SIZE_32 % 256, d.DMA_CHUNK_SIZE_16 % 256]
  | .CONFIG_SOC_SAMA5D2 =>
    [d.DMA_CHUNK_SIZE_16 % 256, d.DMA_CHUNK_SIZE_16 % 256, d.DMA_CHUNK_SIZE_16 % 256,
     d.DMA_CHUNK_SIZE_16 % 256, d.DMA_CHUNK_SIZE_16 % 256]
  | .CONFIG_SOC_SAMA5D4 =>
    [d.DMA_CHUNK_SIZE_16 % 256, d.DMA_CHUNK_SIZE_16 % 256, d.DMA_CHUNK_SIZE_16 % 256,
     d.DMA_CHUNK_SIZE_16 % 256, d.DMA_CHUNK_SIZE_16 % 256]

/-- The table `_sha_output_words` (`uint32_t[]`). -/
def _sha_output_words : List Nat :=
  [SHA_1_DIGEST_SIZE, SHA_256_DIGEST_SIZE, SHA_384_DIGEST_SIZE, SHA_512_DIGEST_SIZE,
   SHA_224_DIGEST_SIZE]

/-! ## Exported functions (sha.c lines 113-192) -/

/-- `sha_start`: `SHA->SHA_CR = SHA_CR_START;` -/
def sha_start (h : ShaHeader) (s : Sha) : Sha :=
  { s with SHA_CR := h.SHA_CR_START }

/-- `sha_soft_reset`: `SHA->SHA_CR = SHA_CR_SWRST;` -/
def sha_soft_reset (h : ShaHeader) (s : Sha) : Sha :=
  { s with SHA_CR := h.SHA_CR_SWRST }

/-- `sha_first_block`: `SHA->SHA_CR = SHA_CR_FIRST;` -/
def sha_first_block (h : ShaHeader) (s : Sha) : Sha :=
  { s with SHA_CR := h.SHA_CR_FIRST }

/-- `sha_configure`: `SHA->SHA_MR = mode;` with `mode` a `uint32_t`. -/
def sha_configure (s : Sha) (mode : Nat) : Sha :=
  { s with SHA_MR := mode % 2 ^ 32 }

/-- `sha_enable_it`: `SHA->SHA_IER = sources;` -/
def sha_enable_it (s : Sha) (sources : Nat) : Sha :=
  { s with SHA_IER := sources % 2 ^ 32 }

/-- `sha_disable_it`: `SHA->SHA_IDR = sources;` -/
def sha_disable_it (s : Sha) (sources : Nat) : Sha :=
  { s with SHA_IDR := sources % 2 ^ 32 }

/-- `sha_get_status`: `return SHA->SHA_ISR;` (the state is returned with the
value: the function stores nothing). -/
def sha_get_status (s : Sha) : Nat × Sha :=
  (s.SHA_ISR, s)

/-- The stores of the first loop of `sha_set_input`, into `SHA_IDATAR`:
`num = len <= 16 ? len : 16; for (i = 0; i < num; i++) SHA_IDATAR[i] = data[i];` -/
def sha_set_input_idata_stores (data : Nat → Nat) (len : Nat) : List (Nat × Nat) :=
  let num := if len ≤ 16 then len else 16
  for_stores num fun i => data i

/-- The stores of the second loop of `sha_set_input`, into `SHA_IODATAR`:
`num = len > 16 ? len - 16 : 0; for (i = 0; i < num; i++) SHA_IODATAR[i] = data[i + 16];`
(`num` is a `uint8_t`). -/
def sha_set_input_iodata_stores (data : Nat → Nat) (len : Nat) : List (Nat × Nat) :=
  let num := if len > 16 then (len - 16) % 256 else 0
  for_stores num fun i => data (i + 16)

/-- `sha_set_input(data, len)`: the first loop, then the second. -/
def sha_set_input (s : Sha) (data : Nat → Nat) (len : Nat) : Sha :=
  let s1 := { s with SHA_IDATAR := storeAll s.SHA_IDATAR (sha_set_input_idata_stores data len) }
  { s1 with SHA_IODATAR := storeAll s1.SHA_IODATAR (sha_set_input_iodata_stores data len) }

/-- The local table `hash_size` of `sha_get_output` (`uint8_t[5]`). -/
def hash_size : List Nat := [160 / 32, 256 / 32, 384 / 32, 512 / 32, 224 / 32]

/-- The value of `algo` in `sha_get_output` when the assertion is evaluated
(lines 167-172): the masked mode register, brought back from the HMAC range
where the header defines one (in `uint32_t` arithmetic), then shifted. -/
def sha_get_output_algo (h : ShaHeader) (s : Sha) : Nat :=
  let algo := s.SHA_MR &&& h.SHA_MR_ALGO_Msk
  let algo :=
    match h.SHA_MR_ALGO_HMAC_SHA1 with
    | some hmac_sha1 =>
      if algo ≥ hmac_sha1 then (algo - hmac_sha1 + h.SHA_MR_ALGO_SHA1) % 2 ^ 32 else algo
    | none => algo
  algo >>> h.SHA_MR_ALGO_Pos

/-- The stores `data[i] = SHA->SHA_IODATAR[i]` of `sha_get_output` in program
order, or `none` when `assert(algo < ARRAY_SIZE(hash_size))` fails. -/
def sha_get_output_stores (h : ShaHeader) (s : Sha) : Option (List (Nat × Nat)) :=
  let algo := sha_get_output_algo h s
  if hlt : algo < hash_size.length then
    let words := hash_size[algo]
    some (for_stores words fun i => s.SHA_IODATAR i)
  else
    none

/-- How a call of `sha_get_output` ends: the assertion fails, or the function
returns; either way with the peripheral and the caller's buffer as they are
at that point. -/
inductive Outcome where
  | assert_failed (sha : Sha) (data : Nat → Nat)
  | returned (sha : Sha) (data : Nat → Nat)

/-- The caller's buffer at the end of the call. -/
def Outcome.buffer : Outcome → Nat → Nat
  | .assert_failed _ data => data
  | .returned _ data => data

/-- The peripheral at the end of the call. -/
def Outcome.regs : Outcome → Sha
  | .assert_failed sha _ => sha
  | .returned sha _ => sha

/-- Whether the call ended in the assertion. -/
def Outcome.failed : Outcome → Bool
  | .assert_failed _ _ => true
  | .returned _ _ => false

/-- `sha_get_output(data)`. -/
def sha_get_output (h : ShaHeader) (s : Sha) (data : Nat → Nat) : Outcome :=
  match sha_get_output_stores h s with
  | none => .assert_failed s data
  | some stores => .returned s (storeAll data stores)

/-- `sha_get_dma_chunk_size(mode)`; `none` is an access outside the table. -/
def sha_get_dma_chunk_size (soc : Soc) (d : DmaHeader) (mode : Nat) : Option Nat :=
  if mode ≥ SHA_MODE_COUNT then some 0
  else (_sha_dma_chunk_size soc d)[mode]?

/-- `sha_get_output_words(mode)`, a `uint8_t`; `none` is an access outside
the table. -/
def sha_get_output_words (mode : Nat) : Option Nat :=
  if mode ≥ SHA_MODE_COUNT then some 0
  else (_sha_output_words[mode]?).map fun bits => (bits / 32) % 256


/-- Modelled from the spec: the value of the `component_sha.h` macro that
selects the plain algorithm of mode index `m` in the ALGO field, the
plain-range base `SHA_MR_ALGO_SHA1` plus `m` at the field position (the
vendor headers write a field value as `(n << FIELD_Pos)`). -/
def plain_encoding (h : ShaHeader) (m : Nat) : Nat :=
  h.SHA_MR_ALGO_SHA1 + (m <<< h.SHA_MR_ALGO_Pos)

/-- Modelled from the spec: the value of the `component_sha.h` macro that
selects the keyed (HMAC) variant of mode index `m`, the keyed-range base
`SHA_MR_ALGO_HMAC_SHA1` plus `m` at the field position. -/
def hmac_encoding (h : ShaHeader) (hmac_sha1 : Nat) (m : Nat) : Nat :=
  hmac_sha1 + (m <<< h.SHA_MR_ALGO_Pos)

/-- Modelled from the spec: the digest length of each mode in 32-bit words,
in mode order. -/
def digest_words : List Nat := [5, 8, 12, 16, 7]

/-- A header without a keyed range: ALGO is a 3-bit field at bit 8. -/
def header_plain : ShaHeader where
  SHA_CR_START := 1
  SHA_CR_FIRST := 16
  SHA_CR_SWRST := 256
  SHA_MR_ALGO_Pos := 8
  SHA_MR_ALGO_Msk := 0x700
  SHA_MR_ALGO_SHA1 := 0
  SHA_MR_ALGO_HMAC_SHA1 := none

/-- A header with a keyed range: ALGO is a 4-bit field at bit 8, the keyed
encodings start at field value 8. -/
def header_hmac : ShaHeader where
  SHA_CR_START := 1
  SHA_CR_FIRST := 16
  SHA_CR_SWRST := 256
  SHA_MR_ALGO_Pos := 8
  SHA_MR_ALGO_Msk := 0xf00
  SHA_MR_ALGO_SHA1 := 0
  SHA_MR_ALGO_HMAC_SHA1 := some 0x800

/-- A peripheral state whose registers are all zero except the mode register,
and whose bank word `i` is `100 + i` (primary) and `200 + i` (secondary). -/
def sample_sha (mr : Nat) : Sha where
  SHA_CR := 0
  SHA_MR := mr
  SHA_IER := 0
  SHA_IDR := 0
  SHA_ISR := 0
  SHA_IDATAR := fun i => 100 + i
  SHA_IODATAR := fun i => 200 + i

/-- A pair of DMA chunk-size constants that fit the `uint8_t` table. -/
def sample_dma : DmaHeader where
  DMA_CHUNK_SIZE_16 := 4
  DMA_CHUNK_SIZE_32 := 5

/-! ## Sequences of driver calls -/

/-- A call of one of the driver operations that follow `sha_configure` in the
documented use of the driver, with its arguments. -/
inductive Op where
  | first_block
  | set_input (data : Nat → Nat) (len : Nat)
  | start
  | enable_it (sources : Nat)
  | disable_it (sources : Nat)
  | get_status
  | get_output (data : Nat → Nat)

/-- Whether the call respects the count limit of `sha_set_input` (at most 32
words); the other calls have no limit. -/
def Op.count_ok : Op → Bool
  | .set_input _ len => decide (len ≤ 32)
  | _ => true

/-- The peripheral after a sequence of calls, made in list order from state
`s`. A call of `sha_get_output` whose assertion fails ends the program: the
calls after it are not made and the state is the one at the assertion. -/
def exec (h : ShaHeader) : List Op → Sha → Sha
  | [], s => s
  | .first_block :: ops, s => exec h ops (sha_first_block h s)
  | .set_input data len :: ops, s => exec h ops (sha_set_input s data len)
  | .start :: ops, s => exec h ops (sha_start h s)
  | .enable_it sources :: ops, s => exec h ops (sha_enable_it s sources)
  | .disable_it sources :: ops, s => exec h ops (sha_disable_it s sources)
  | .get_status :: ops, s => exec h ops (sha_get_status s).2
  | .get_output data :: ops, s =>
    match sha_get_output h s data with
    | .assert_failed sha _ => sha
    | .returned sha _ => exec h ops sha

/-! ## Lemmas on stores -/

theorem for_stores_length (num : Nat) (src : Nat → Nat) : (for_stores num src).length = num := by
  simp [for_stores]

theorem for_stores_succ (num : Nat) (src : Nat → Nat) :
    for_stores (num + 1) src = for_stores num src ++ [(num, src num)] := by
  simp [for_stores, List.range_succ]

theorem storeAll_append (mem : Nat → Nat) (xs ys : List (Nat × Nat)) :
    storeAll mem (xs ++ ys) = storeAll (storeAll mem xs) ys := by
  simp [storeAll, List.foldl_append]

theorem storeAll_for_stores_of_lt (mem src : Nat → Nat) (num i : Nat) (hi : i < num) :
    storeAll mem (for_stores num src) i = src i := by
  induction num with
  | zero => omega
  | succ n ih =>
    rw [for_stores_succ, storeAll_append]
    by_cases hin : i = n
    · subst hin
      simp [storeAll]
    · have hlt : i < n := by omega
      simp [storeAll, Function.update_noteq hin]
      exact ih hlt

theorem storeAll_for_stores_of_ge (mem src : Nat → Nat) (num i : Nat) (hi : num ≤ i) :
    storeAll mem (for_stores num src) i = mem i := by
  induction num with
  | zero => simp [for_stores, storeAll]
  | succ n ih =>
    rw [for_stores_succ, storeAll_append]
    have hne : i ≠ n := by omega
    simp [storeAll, Function.update_noteq hne]
    exact ih (by omega)

theorem storeAll_nil (mem : Nat → Nat) : storeAll mem [] = mem := rfl

/-! ## Lemmas on the algorithm index -/

theorem shift_base_add (base m pos : Nat) (hbase : base >>> pos = 0) :
    (base + (m <<< pos)) >>> pos = m := by
  rw [Nat.shiftRight_eq_div_pow] at hbase
  rw [Nat.shiftRight_eq_div_pow, Nat.shiftLeft_eq, Nat.add_mul_div_right _ _ (by positivity),
    hbase, Nat.zero_add]

theorem sha_get_output_algo_plain (h : ShaHeader) (s : Sha) (m : Nat)
    (hbase : h.SHA_MR_ALGO_SHA1 >>> h.SHA_MR_ALGO_Pos = 0)
    (hrange : ∀ k, h.SHA_MR_ALGO_HMAC_SHA1 = some k → plain_encoding h m < k)
    (halgo : s.SHA_MR &&& h.SHA_MR_ALGO_Msk = plain_encoding h m) :
    sha_get_output_algo h s = m := by
  unfold sha_get_output_algo
  rw [halgo]
  cases hk : h.SHA_MR_ALGO_HMAC_SHA1 with
  | none => exact shift_base_add _ _ _ hbase
  | some k =>
    have := hrange k hk
    simp only [ge_iff_le, Nat.not_le.mpr this, if_false]
    exact shift_base_add _ _ _ hbase

theorem sha_get_output_stores_of_algo (h : ShaHeader) (s : Sha) (m : Nat) (hm : m < 5)
    (halgo : sha_get_output_algo h s = m) :
    sha_get_output_stores h s = some (for_stores (digest_words[m]!) s.SHA_IODATAR) := by
  unfold sha_get_output_stores
  simp only [halgo]
  interval_cases m <;> simp [hash_size, digest_words]

theorem sha_get_output_algo_hmac (h : ShaHeader) (s : Sha) (k m : Nat)
    (hk : h.SHA_MR_ALGO_HMAC_SHA1 = some k)
    (hmsk : h.SHA_MR_ALGO_Msk < 2 ^ 32)
    (hbase : h.SHA_MR_ALGO_SHA1 >>> h.SHA_MR_ALGO_Pos = 0)
    (hrange : plain_encoding h m < k)
    (halgo : s.SHA_MR &&& h.SHA_MR_ALGO_Msk = hmac_encoding h k m) :
    sha_get_output_algo h s = m := by
  have hle : hmac_encoding h k m < 2 ^ 32 := by
    rw [← halgo]
    exact lt_of_le_of_lt Nat.and_le_right hmsk
  unfold sha_get_output_algo
  rw [halgo, hk]
  unfold hmac_encoding plain_encoding at *
  have hge : k + m <<< h.SHA_MR_ALGO_Pos ≥ k := Nat.le_add_right _ _
  simp only [hge, if_true]
  have hsub : k + m <<< h.SHA_MR_ALGO_Pos - k + h.SHA_MR_ALGO_SHA1
      = h.SHA_MR_ALGO_SHA1 + m <<< h.SHA_MR_ALGO_Pos := by omega
  rw [hsub, Nat.mod_eq_of_lt (by omega)]
  exact shift_base_add _ _ _ hbase

theorem storeAll_for_stores_buffer_ge (h : ShaHeader) (s : Sha) (data : Nat → Nat) (m : Nat)
    (hm : m < 5) (halgo : sha_get_output_algo h s = m) (i : Nat) (hi : digest_words[m]! ≤ i) :
    (sha_get_output h s data).buffer i = data i := by
  simp only [sha_get_output, sha_get_output_stores_of_algo h s m hm halgo, Outcome.buffer]
  exact storeAll_for_stores_of_ge _ _ _ _ hi

theorem mem_for_stores (num : Nat) (src : Nat → Nat) (w : Nat × Nat) :
    w ∈ for_stores num src ↔ w.1 < num ∧ w.2 = src w.1 := by
  simp only [for_stores, List.mem_map, List.mem_range]
  constructor
  · rintro ⟨i, hi, rfl⟩
    exact ⟨hi, rfl⟩
  · rintro ⟨hi, hv⟩
    exact ⟨w.1, hi, by rw [← hv]⟩

theorem sha_get_output_regs (h : ShaHeader) (s : Sha) (data : Nat → Nat) :
    (sha_get_output h s data).regs = s := by
  unfold sha_get_output
  cases sha_get_output_stores h s <;> rfl

theorem exec_SHA_MR (h : ShaHeader) (ops : List Op) (s : Sha) :
    (exec h ops s).SHA_MR = s.SHA_MR := by
  induction ops generalizing s with
  | nil => rfl
  | cons op ops ih =>
    cases op with
    | first_block => simp only [exec]; rw [ih]; rfl
    | set_input data len => simp only [exec]; rw [ih]; rfl
    | start => simp only [exec]; rw [ih]; rfl
    | enable_it sources => simp only [exec]; rw [ih]; rfl
    | disable_it sources => simp only [exec]; rw [ih]; rfl
    | get_status => simp only [exec]; rw [ih]; rfl
    | get_output data =>
      simp only [exec, sha_get_output]
      cases sha_get_output_stores h s with
      | none => rfl
      | some stores => exact ih s

theorem sha_get_output_algo_congr (h : ShaHeader) (s t : Sha)
    (hfield : s.SHA_MR &&& h.SHA_MR_ALGO_Msk = t.SHA_MR &&& h.SHA_MR_ALGO_Msk) :
    sha_get_output_algo h s = sha_get_output_algo h t := by
  unfold sha_get_output_algo
  rw [hfield]

theorem sha_get_output_stores_congr (h : ShaHeader) (s t : Sha)
    (halgo : sha_get_output_algo h s = sha_get_output_algo h t)
    (hbank : s.SHA_IODATAR = t.SHA_IODATAR) :
    sha_get_output_stores h s = sha_get_output_stores h t := by
  simp only [sha_get_output_stores, halgo, hbank]

theorem sha_get_output_stores_length_congr (h : ShaHeader) (s t : Sha)
    (halgo : sha_get_output_algo h s = sha_get_output_algo h t) :
    (sha_get_output_stores h s).map List.length = (sha_get_output_stores h t).map List.length := by
  simp only [sha_get_output_stores, halgo]
  split <;> simp [for_stores_length]

theorem hash_size_le_16 (i : Nat) (hi : i < hash_size.length) : hash_size[i] ≤ 16 := by
  have hall : ∀ x ∈ hash_size, x ≤ 16 := by decide
  exact hall _ (List.getElem_mem hi)

theorem and_mod_two_pow_eq_zero (x m p : Nat) (hm : m % 2 ^ p = 0) : (x &&& m) % 2 ^ p = 0 := by
  apply Nat.eq_of_testBit_eq
  intro i
  have hbit : (m % 2 ^ p).testBit i = false := by rw [hm]; exact Nat.zero_testBit i
  rw [Nat.testBit_mod_two_pow] at hbit
  rw [Nat.testBit_mod_two_pow, Nat.testBit_and, Nat.zero_testBit]
  by_cases hi : i < p
  · simp only [hi, decide_True, Bool.true_and] at hbit
    simp [hbit]
  · simp [hi]

theorem sha_get_output_failed_iff (h : ShaHeader) (s : Sha) (data : Nat → Nat) :
    (sha_get_output h s data).failed = true ↔ 5 ≤ sha_get_output_algo h s := by
  have hlen : hash_size.length = 5 := rfl
  by_cases hlt : sha_get_output_algo h s < hash_size.length
  · simp only [sha_get_output, sha_get_output_stores, hlt, dite_true, Outcome.failed]
    constructor
    · intro hf; cases hf
    · intro h5; omega
  · simp only [sha_get_output, sha_get_output_stores, hlt, dite_false, Outcome.failed]
    constructor
    · intro _; omega
    · intro _; trivial

theorem sha_get_output_algo_keyed (h : ShaHeader) (s : Sha) (k j : Nat)
    (hk : h.SHA_MR_ALGO_HMAC_SHA1 = some k)
    (hmsk : h.SHA_MR_ALGO_Msk < 2 ^ 32)
    (hsha1 : h.SHA_MR_ALGO_SHA1 = 0)
    (halgo : s.SHA_MR &&& h.SHA_MR_ALGO_Msk = hmac_encoding h k j) :
    sha_get_output_algo h s = j := by
  have hle : hmac_encoding h k j < 2 ^ 32 := by
    rw [← halgo]
    exact lt_of_le_of_lt Nat.and_le_right hmsk
  unfold sha_get_output_algo
  rw [halgo, hk, hsha1]
  unfold hmac_encoding at *
  have hge : k + j <<< h.SHA_MR_ALGO_Pos ≥ k := Nat.le_add_right _ _
  simp only [hge, if_true]
  have hsub : k + j <<< h.SHA_MR_ALGO_Pos - k + 0 = 0 + j <<< h.SHA_MR_ALGO_Pos := by omega
  rw [hsub, Nat.mod_eq_of_lt (by omega)]
  exact shift_base_add _ _ _ (Nat.zero_shiftRight _)

theorem plain_encoding_zero_base (h : ShaHeader) (m : Nat) (hsha1 : h.SHA_MR_ALGO_SHA1 = 0) :
    plain_encoding h m = m * 2 ^ h.SHA_MR_ALGO_Pos := by
  simp [plain_encoding, hsha1, Nat.shiftLeft_eq]

theorem field_value_cases (h : ShaHeader) (k a : Nat)
    (hsha1 : h.SHA_MR_ALGO_SHA1 = 0)
    (ha : a % 2 ^ h.SHA_MR_ALGO_Pos = 0) (hka : k % 2 ^ h.SHA_MR_ALGO_Pos = 0) :
    ∃ m, (a = plain_encoding h m ∧ a < k) ∨ a = hmac_encoding h k m := by
  obtain ⟨fa, hfa⟩ := Nat.dvd_of_mod_eq_zero ha
  obtain ⟨fk, hfk⟩ := Nat.dvd_of_mod_eq_zero hka
  have hP : 0 < 2 ^ h.SHA_MR_ALGO_Pos := by positivity
  by_cases hlt : a < k
  · exact ⟨fa, Or.inl ⟨by rw [plain_encoding_zero_base h fa hsha1, hfa, Nat.mul_comm], hlt⟩⟩
  · refine ⟨fa - fk, Or.inr ?_⟩
    have hle : fk ≤ fa := by
      rw [hfa, hfk] at hlt
      exact Nat.le_of_mul_le_mul_left (Nat.not_lt.mp hlt) hP
    simp only [hmac_encoding, Nat.shiftLeft_eq]
    rw [hfa, hfk, Nat.mul_comm (fa - fk), ← Nat.mul_add, Nat.add_sub_cancel' hle]

/-! ## Theorems on the driver -/

/-- C1: for each of the five valid modes, `sha_get_output_words` returns a
word count whose product with 32 is the documented digest bit length of the
mode; the counts are 5, 8, 12, 16, 7. -/
theorem sha_get_output_words_bits :
    ∀ m : Fin 5, ∃ w, sha_get_output_words m.val = some w ∧
      w * 32 = documented_digest_bits[m.val]! ∧ w = [5, 8, 12, 16, 7][m.val]! := by
  decide

/-- C2: a mode of the 8-bit range that is not a valid mode (5..255) makes
`sha_get_output_words` return 0 and, whatever the chip and DMA constants,
`sha_get_dma_chunk_size` return 0; neither outcome is a table access. -/
theorem invalid_mode_returns_zero (mode : Nat) (hlo : SHA_MODE_COUNT ≤ mode) (hhi : mode < 256) :
    sha_get_output_words mode = some 0 ∧
      ∀ (soc : Soc) (d : DmaHeader), sha_get_dma_chunk_size soc d mode = some 0 := by
  have _ := hhi
  constructor
  · simp [sha_get_output_words, hlo]
  · intro soc d
    simp [sha_get_dma_chunk_size, hlo]

/-- C2 at a concrete input: the largest 8-bit mode. -/
theorem invalid_mode_returns_zero_witness :
    sha_get_output_words 255 = some 0 ∧
      ∀ (soc : Soc) (d : DmaHeader), sha_get_dma_chunk_size soc d 255 = some 0 :=
  invalid_mode_returns_zero 255 (by decide) (by decide)

/-- C3: when the ALGO field of the mode register holds the plain encoding of
mode `m` (SHA1, SHA256, SHA384, SHA512, SHA224), `sha_get_output` returns
after exactly `W = 5, 8, 12, 16, 7` stores, the stores being to buffer words
`0 .. W-1` in ascending order, and buffer word `i < W` is then secondary-bank
word `i`; this for every register state and every buffer. -/
theorem sha_get_output_plain (h : ShaHeader) (s : Sha) (data : Nat → Nat) (m : Nat) (hm : m < 5)
    (hbase : h.SHA_MR_ALGO_SHA1 >>> h.SHA_MR_ALGO_Pos = 0)
    (hrange : ∀ k, h.SHA_MR_ALGO_HMAC_SHA1 = some k → plain_encoding h m < k)
    (halgo : s.SHA_MR &&& h.SHA_MR_ALGO_Msk = plain_encoding h m) :
    ∃ stores out,
      sha_get_output_stores h s = some stores ∧
      stores.length = digest_words[m]! ∧
      stores.map Prod.fst = List.range (digest_words[m]!) ∧
      sha_get_output h s data = .returned s out ∧
      ∀ i, i < digest_words[m]! → out i = s.SHA_IODATAR i := by
  have hst := sha_get_output_stores_of_algo h s m hm
    (sha_get_output_algo_plain h s m hbase hrange halgo)
  refine ⟨_, storeAll data (for_stores (digest_words[m]!) s.SHA_IODATAR), hst,
    for_stores_length _ _, ?_, ?_, ?_⟩
  · simp [for_stores, Function.comp_def]
  · simp only [sha_get_output, hst]
  · intro i hi
    exact storeAll_for_stores_of_lt _ _ _ _ hi

/-- C3 at a concrete input: SHA256 (`m = 1`) on a header with a keyed range,
mode register `0x100`. -/
theorem sha_get_output_plain_witness :
    ∃ stores out,
      sha_get_output_stores header_hmac (sample_sha 0x100) = some stores ∧
      stores.length = digest_words[1]! ∧
      stores.map Prod.fst = List.range (digest_words[1]!) ∧
      sha_get_output header_hmac (sample_sha 0x100) (fun _ => 0)
        = .returned (sample_sha 0x100) out ∧
      ∀ i, i < digest_words[1]! → out i = (sample_sha 0x100).SHA_IODATAR i :=
  sha_get_output_plain header_hmac (sample_sha 0x100) (fun _ => 0) 1 (by decide) (by decide)
    (by intro k hk; cases hk; decide) (by decide)

/-- C4: for `n ≤ 16`, `sha_set_input(data, n)` makes primary-bank word `i`
equal to `data[i]` for `i < n`, leaves the primary-bank words at indices
`≥ n` as they were, and leaves the whole secondary bank and the other
registers as they were; with `n = 0` the state is unchanged. -/
theorem sha_set_input_le_16 (s : Sha) (data : Nat → Nat) (n : Nat) (hn : n ≤ 16) :
    (∀ i, i < n → (sha_set_input s data n).SHA_IDATAR i = data i) ∧
    (∀ i, n ≤ i → (sha_set_input s data n).SHA_IDATAR i = s.SHA_IDATAR i) ∧
    (sha_set_input s data n).SHA_IODATAR = s.SHA_IODATAR ∧
    sha_set_input_iodata_stores data n = [] ∧
    (sha_set_input s data n).SHA_MR = s.SHA_MR ∧
    (n = 0 → sha_set_input s data n = s) := by
  have hio : sha_set_input_iodata_stores data n = [] := by
    simp [sha_set_input_iodata_stores, Nat.not_lt.mpr hn, for_stores]
  have hid : sha_set_input_idata_stores data n = for_stores n data := by
    simp [sha_set_input_idata_stores, hn]
  refine ⟨?_, ?_, ?_, hio, rfl, ?_⟩
  · intro i hi
    simp only [sha_set_input, hid]
    exact storeAll_for_stores_of_lt _ _ _ _ hi
  · intro i hi
    simp only [sha_set_input, hid]
    exact storeAll_for_stores_of_ge _ _ _ _ hi
  · simp only [sha_set_input, hio, storeAll_nil]
  · intro h0
    subst h0
    simp only [sha_set_input, hio, hid, storeAll_nil, for_stores, List.range_zero, List.map_nil]

/-- C4 at a concrete input: three words staged. -/
theorem sha_set_input_le_16_witness :
    (∀ i, i < 3 → (sha_set_input (sample_sha 0) (fun i => 7 * i) 3).SHA_IDATAR i = 7 * i) ∧
    (∀ i, 3 ≤ i → (sha_set_input (sample_sha 0) (fun i => 7 * i) 3).SHA_IDATAR i
      = (sample_sha 0).SHA_IDATAR i) ∧
    (sha_set_input (sample_sha 0) (fun i => 7 * i) 3).SHA_IODATAR = (sample_sha 0).SHA_IODATAR ∧
    sha_set_input_iodata_stores (fun i => 7 * i) 3 = [] ∧
    (sha_set_input (sample_sha 0) (fun i => 7 * i) 3).SHA_MR = (sample_sha 0).SHA_MR ∧
    (3 = 0 → sha_set_input (sample_sha 0) (fun i => 7 * i) 3 = sample_sha 0) :=
  sha_set_input_le_16 (sample_sha 0) (fun i => 7 * i) 3 (by decide)

/-- C5: for `16 < n ≤ 32`, `sha_set_input(data, n)` makes primary-bank word
`i` equal to `data[i]` for every `i < 16` and secondary-bank word `j` equal to
`data[j + 16]` for every `j < n - 16`, and leaves the secondary-bank words at
indices `≥ n - 16` as they were. -/
theorem sha_set_input_gt_16 (s : Sha) (data : Nat → Nat) (n : Nat) (hlo : 16 < n) (hhi : n ≤ 32) :
    (∀ i, i < 16 → (sha_set_input s data n).SHA_IDATAR i = data i) ∧
    (∀ j, j < n - 16 → (sha_set_input s data n).SHA_IODATAR j = data (j + 16)) ∧
    (∀ j, n - 16 ≤ j → (sha_set_input s data n).SHA_IODATAR j = s.SHA_IODATAR j) := by
  have hid : sha_set_input_idata_stores data n = for_stores 16 data := by
    simp [sha_set_input_idata_stores, Nat.not_le.mpr hlo]
  have hmod : (n - 16) % 256 = n - 16 := Nat.mod_eq_of_lt (by omega)
  have hio : sha_set_input_iodata_stores data n = for_stores (n - 16) fun i => data (i + 16) := by
    simp [sha_set_input_iodata_stores, hlo, hmod]
  refine ⟨?_, ?_, ?_⟩
  · intro i hi
    simp only [sha_set_input, hid]
    exact storeAll_for_stores_of_lt _ _ _ _ hi
  · intro j hj
    simp only [sha_set_input, hio]
    exact storeAll_for_stores_of_lt _ _ _ _ hj
  · intro j hj
    simp only [sha_set_input, hio]
    exact storeAll_for_stores_of_ge _ _ _ _ hj

/-- C5 at a concrete input: twenty words staged. -/
theorem sha_set_input_gt_16_witness :
    (∀ i, i < 16 → (sha_set_input (sample_sha 0) (fun i => 7 * i) 20).SHA_IDATAR i = 7 * i) ∧
    (∀ j, j < 20 - 16 →
      (sha_set_input (sample_sha 0) (fun i => 7 * i) 20).SHA_IODATAR j = 7 * (j + 16)) ∧
    (∀ j, 20 - 16 ≤ j → (sha_set_input (sample_sha 0) (fun i => 7 * i) 20).SHA_IODATAR j
      = (sample_sha 0).SHA_IODATAR j) :=
  sha_set_input_gt_16 (sample_sha 0) (fun i => 7 * i) 20 (by decide) (by decide)

/-- C6: on a header that defines a keyed (HMAC) range, for each base
algorithm `b` of the five, `sha_get_output` with the ALGO field holding the
HMAC encoding of `b` performs the same stores (same number, same buffer
indices, same secondary-bank words) and leaves the same buffer as with the
ALGO field holding the plain encoding of `b`, and returns in both cases. -/
theorem sha_get_output_hmac_eq_plain (h : ShaHeader) (k b : Nat) (s1 s2 : Sha) (data : Nat → Nat)
    (hk : h.SHA_MR_ALGO_HMAC_SHA1 = some k) (hb : b < 5)
    (hmsk : h.SHA_MR_ALGO_Msk < 2 ^ 32)
    (hbase : h.SHA_MR_ALGO_SHA1 >>> h.SHA_MR_ALGO_Pos = 0)
    (hrange : plain_encoding h b < k)
    (hkeyed : s1.SHA_MR &&& h.SHA_MR_ALGO_Msk = hmac_encoding h k b)
    (hplain : s2.SHA_MR &&& h.SHA_MR_ALGO_Msk = plain_encoding h b)
    (hbank : s1.SHA_IODATAR = s2.SHA_IODATAR) :
    sha_get_output_stores h s1 = sha_get_output_stores h s2 ∧
    sha_get_output_stores h s1 = some (for_stores (digest_words[b]!) s1.SHA_IODATAR) ∧
    (sha_get_output h s1 data).failed = false ∧
    (sha_get_output h s2 data).failed = false ∧
    (sha_get_output h s1 data).buffer = (sha_get_output h s2 data).buffer := by
  have e1 := sha_get_output_stores_of_algo h s1 b hb
    (sha_get_output_algo_hmac h s1 k b hk hmsk hbase hrange hkeyed)
  have e2 := sha_get_output_stores_of_algo h s2 b hb
    (sha_get_output_algo_plain h s2 b hbase
      (fun k2 hk2 => by rw [hk] at hk2; cases hk2; exact hrange) hplain)
  refine ⟨?_, e1, ?_, ?_, ?_⟩
  · rw [e1, e2, hbank]
  · simp only [sha_get_output, e1, Outcome.failed]
  · simp only [sha_get_output, e2, Outcome.failed]
  · simp only [sha_get_output, e1, e2, Outcome.buffer, hbank]

/-- C6 at a concrete input: HMAC-SHA384 (`0xa00`) against SHA384 (`0x200`),
with other mode bits set on the keyed side. -/
theorem sha_get_output_hmac_eq_plain_witness :
    sha_get_output_stores header_hmac (sample_sha 0xa11)
      = sha_get_output_stores header_hmac (sample_sha 0x200) ∧
    sha_get_output_stores header_hmac (sample_sha 0xa11)
      = some (for_stores (digest_words[2]!) (sample_sha 0xa11).SHA_IODATAR) ∧
    (sha_get_output header_hmac (sample_sha 0xa11) (fun _ => 0)).failed = false ∧
    (sha_get_output header_hmac (sample_sha 0x200) (fun _ => 0)).failed = false ∧
    (sha_get_output header_hmac (sample_sha 0xa11) (fun _ => 0)).buffer
      = (sha_get_output header_hmac (sample_sha 0x200) (fun _ => 0)).buffer :=
  sha_get_output_hmac_eq_plain header_hmac 0x800 2 (sample_sha 0xa11) (sample_sha 0x200)
    (fun _ => 0) rfl (by decide) (by decide) (by decide) (by decide) (by decide) (by decide) rfl

/-- C7: the local table of `sha_get_output` holds the entries of
`_sha_output_words` divided by 32, and for every valid mode `m` the value `w`
of `sha_get_output_words(m)` is the number of stores `sha_get_output` performs
when the ALGO field holds the plain encoding of `m`. A buffer of `w` words is
exactly filled: the call returns, the stores are to the indices `0 .. w-1`,
buffer word `i` is secondary-bank word `i` for every `i < w`, and every buffer
element at an index `≥ w` is as it was before the call. -/
theorem sha_get_output_words_eq_stores (h : ShaHeader) (s : Sha) (data : Nat → Nat) (m : Nat)
    (hm : m < 5)
    (hbase : h.SHA_MR_ALGO_SHA1 >>> h.SHA_MR_ALGO_Pos = 0)
    (hrange : ∀ k, h.SHA_MR_ALGO_HMAC_SHA1 = some k → plain_encoding h m < k)
    (halgo : s.SHA_MR &&& h.SHA_MR_ALGO_Msk = plain_encoding h m) :
    hash_size = _sha_output_words.map (fun bits => (bits / 32) % 256) ∧
    ∃ stores w out,
      sha_get_output_stores h s = some stores ∧
      sha_get_output_words m = some w ∧
      stores.length = w ∧
      stores.map Prod.fst = List.range w ∧
      sha_get_output h s data = .returned s out ∧
      (sha_get_output h s data).failed = false ∧
      (∀ i, i < w → out i = s.SHA_IODATAR i) ∧
      (∀ i, w ≤ i → out i = data i) := by
  have hst := sha_get_output_stores_of_algo h s m hm
    (sha_get_output_algo_plain h s m hbase hrange halgo)
  refine ⟨by decide, _, digest_words[m]!,
    storeAll data (for_stores (digest_words[m]!) s.SHA_IODATAR), hst, ?_,
    for_stores_length _ _, ?_, ?_, ?_, ?_, ?_⟩
  · interval_cases m <;> decide
  · simp [for_stores, Function.comp_def]
  · simp only [sha_get_output, hst]
  · simp only [sha_get_output, hst, Outcome.failed]
  · intro i hi
    exact storeAll_for_stores_of_lt _ _ _ _ hi
  · intro i hi
    exact storeAll_for_stores_of_ge _ _ _ _ hi

/-- C7 at a concrete input: SHA512 on a header without a keyed range, into a
buffer of constant words 9. -/
theorem sha_get_output_words_eq_stores_witness :
    hash_size = _sha_output_words.map (fun bits => (bits / 32) % 256) ∧
    ∃ stores w out,
      sha_get_output_stores header_plain (sample_sha 0x300) = some stores ∧
      sha_get_output_words 3 = some w ∧
      stores.length = w ∧
      stores.map Prod.fst = List.range w ∧
      sha_get_output header_plain (sample_sha 0x300) (fun _ => 9)
        = .returned (sample_sha 0x300) out ∧
      (sha_get_output header_plain (sample_sha 0x300) (fun _ => 9)).failed = false ∧
      (∀ i, i < w → out i = (sample_sha 0x300).SHA_IODATAR i) ∧
      (∀ i, w ≤ i → out i = 9) :=
  sha_get_output_words_eq_stores header_plain (sample_sha 0x300) (fun _ => 9) 3 (by decide)
    (by decide) (by intro k hk; cases hk) (by decide)

/-- C8: for every header, register state and buffer, `sha_get_output` ends in
its assertion exactly when the normalized, shifted ALGO index is `≥ 5`; it
then has performed no store and the buffer is as it was. Otherwise it
returns, having performed as many stores as the table entry at that index. -/
theorem sha_get_output_assert_iff (h : ShaHeader) (s : Sha) (data : Nat → Nat) :
    ((sha_get_output h s data).failed = true ↔ 5 ≤ sha_get_output_algo h s) ∧
    (5 ≤ sha_get_output_algo h s →
      sha_get_output_stores h s = none ∧ sha_get_output h s data = .assert_failed s data) ∧
    (∀ hlt : sha_get_output_algo h s < hash_size.length,
      ∃ stores, sha_get_output_stores h s = some stores ∧
        stores.length = hash_size[sha_get_output_algo h s] ∧
        sha_get_output h s data = .returned s (storeAll data stores)) := by
  have hlen : hash_size.length = 5 := rfl
  by_cases hlt : sha_get_output_algo h s < hash_size.length
  · have hst : sha_get_output_stores h s
        = some (for_stores (hash_size[sha_get_output_algo h s]) fun i => s.SHA_IODATAR i) := by
      simp only [sha_get_output_stores, hlt, dite_true]
    refine ⟨?_, ?_, ?_⟩
    · simp only [sha_get_output, hst, Outcome.failed]
      constructor
      · intro hf; cases hf
      · intro h5; omega
    · intro h5; omega
    · intro _
      exact ⟨_, hst, for_stores_length _ _, by simp only [sha_get_output, hst]⟩
  · have hst : sha_get_output_stores h s = none := by
      simp only [sha_get_output_stores, hlt, dite_false]
    refine ⟨?_, ?_, ?_⟩
    · simp only [sha_get_output, hst, Outcome.failed]
      constructor
      · intro _; omega
      · intro _; trivial
    · intro _
      exact ⟨hst, by simp only [sha_get_output, hst]⟩
    · intro hlt2
      exact absurd hlt2 hlt

/-- C8 at a concrete input: ALGO field value 5 on a header without a keyed
range ends in the assertion with the buffer untouched. -/
theorem sha_get_output_assert_iff_witness :
    sha_get_output_stores header_plain (sample_sha 0x500) = none ∧
    sha_get_output header_plain (sample_sha 0x500) (fun _ => 9)
      = .assert_failed (sample_sha 0x500) (fun _ => 9) :=
  (sha_get_output_assert_iff header_plain (sample_sha 0x500) (fun _ => 9)).2.1 (by decide)

/-- C9: whenever the mode register selects a valid algorithm, that is the
normalized index is some `m < 5` (plain or keyed encoding) with word count
`W`, `sha_get_output` returns and every buffer element at an index `≥ W` is
as it was before the call; for SHA256 (`m = 1`) these are the elements from
index 8 onward. -/
theorem sha_get_output_frame (h : ShaHeader) (s : Sha) (data : Nat → Nat) (m : Nat) (hm : m < 5)
    (halgo : sha_get_output_algo h s = m) :
    (sha_get_output h s data).failed = false ∧
    (∀ i, digest_words[m]! ≤ i → (sha_get_output h s data).buffer i = data i) ∧
    (m = 1 → ∀ i, 8 ≤ i → (sha_get_output h s data).buffer i = data i) := by
  refine ⟨?_, ?_, ?_⟩
  · simp only [sha_get_output, sha_get_output_stores_of_algo h s m hm halgo, Outcome.failed]
  · intro i hi
    exact storeAll_for_stores_buffer_ge h s data m hm halgo i hi
  · intro h1 i hi
    subst h1
    exact storeAll_for_stores_buffer_ge h s data 1 hm halgo i hi

/-- C9 at a concrete input: SHA256 with a buffer of constant words 9. -/
theorem sha_get_output_frame_witness :
    (sha_get_output header_hmac (sample_sha 0x100) (fun _ => 9)).failed = false ∧
    (∀ i, digest_words[1]! ≤ i →
      (sha_get_output header_hmac (sample_sha 0x100) (fun _ => 9)).buffer i = 9) ∧
    (1 = 1 → ∀ i, 8 ≤ i →
      (sha_get_output header_hmac (sample_sha 0x100) (fun _ => 9)).buffer i = 9) :=
  sha_get_output_frame header_hmac (sample_sha 0x100) (fun _ => 9) 1 (by decide) (by decide)

/-- C10: for DMA chunk constants that fit the `uint8_t` table,
`sha_get_dma_chunk_size` returns the table entry of the selected chip for
every valid mode: on SAMA5D3, `DMA_CHUNK_SIZE_32` for SHA384 and SHA512 and
`DMA_CHUNK_SIZE_16` for SHA1, SHA256 and SHA224; on SAMA5D2 and SAMA5D4,
`DMA_CHUNK_SIZE_16` for all five modes. -/
theorem sha_get_dma_chunk_size_table (d : DmaHeader)
    (h16 : d.DMA_CHUNK_SIZE_16 < 256) (h32 : d.DMA_CHUNK_SIZE_32 < 256) :
    (∀ soc, ∀ m : Fin 5,
      sha_get_dma_chunk_size soc d m.val = (_sha_dma_chunk_size soc d)[m.val]?) ∧
    (∀ m, m = SHA_MODE_SHA384 ∨ m = SHA_MODE_SHA512 →
      sha_get_dma_chunk_size .CONFIG_SOC_SAMA5D3 d m = some d.DMA_CHUNK_SIZE_32) ∧
    (∀ m, m = SHA_MODE_SHA1 ∨ m = SHA_MODE_SHA256 ∨ m = SHA_MODE_SHA224 →
      sha_get_dma_chunk_size .CONFIG_SOC_SAMA5D3 d m = some d.DMA_CHUNK_SIZE_16) ∧
    (∀ m : Fin 5, sha_get_dma_chunk_size .CONFIG_SOC_SAMA5D2 d m.val = some d.DMA_CHUNK_SIZE_16) ∧
    (∀ m : Fin 5, sha_get_dma_chunk_size .CONFIG_SOC_SAMA5D4 d m.val = some d.DMA_CHUNK_SIZE_16) := by
  have e16 := Nat.mod_eq_of_lt h16
  have e32 := Nat.mod_eq_of_lt h32
  refine ⟨?_, ?_, ?_, ?_, ?_⟩
  · intro soc m
    have : ¬ (m.val ≥ SHA_MODE_COUNT) := by simp [SHA_MODE_COUNT]
    simp only [sha_get_dma_chunk_size, this, if_false]
  · rintro m (rfl | rfl) <;>
      simp [sha_get_dma_chunk_size, _sha_dma_chunk_size, SHA_MODE_COUNT, SHA_MODE_SHA384,
        SHA_MODE_SHA512, e32]
  · rintro m (rfl | rfl | rfl) <;>
      simp [sha_get_dma_chunk_size, _sha_dma_chunk_size, SHA_MODE_COUNT, SHA_MODE_SHA1,
        SHA_MODE_SHA256, SHA_MODE_SHA224, e16]
  · intro m
    fin_cases m <;> simp [sha_get_dma_chunk_size, _sha_dma_chunk_size, SHA_MODE_COUNT, e16]
  · intro m
    fin_cases m <;> simp [sha_get_dma_chunk_size, _sha_dma_chunk_size, SHA_MODE_COUNT, e16]

/-- C10 at a concrete pair of chunk constants. -/
theorem sha_get_dma_chunk_size_table_witness :
    sha_get_dma_chunk_size .CONFIG_SOC_SAMA5D3 sample_dma SHA_MODE_SHA512
      = some sample_dma.DMA_CHUNK_SIZE_32 :=
  (sha_get_dma_chunk_size_table sample_dma (by decide) (by decide)).2.1 SHA_MODE_SHA512
    (Or.inr rfl)

/-- C11: for every 32-bit value `mode_bits` and every register state,
`sha_configure(mode_bits)` leaves the mode register equal to `mode_bits`,
whatever the value (none is rejected or altered), and every other register
and both banks as they were. -/
theorem sha_configure_stores_mode (s : Sha) (mode_bits : Nat) (hbits : mode_bits < 2 ^ 32) :
    (sha_configure s mode_bits).SHA_MR = mode_bits ∧
    (sha_configure s mode_bits).SHA_CR = s.SHA_CR ∧
    (sha_configure s mode_bits).SHA_IER = s.SHA_IER ∧
    (sha_configure s mode_bits).SHA_IDR = s.SHA_IDR ∧
    (sha_configure s mode_bits).SHA_ISR = s.SHA_ISR ∧
    (sha_configure s mode_bits).SHA_IDATAR = s.SHA_IDATAR ∧
    (sha_configure s mode_bits).SHA_IODATAR = s.SHA_IODATAR := by
  refine ⟨?_, rfl, rfl, rfl, rfl, rfl, rfl⟩
  simp only [sha_configure]
  exact Nat.mod_eq_of_lt hbits

/-- C11 at a concrete input: all 32 bits set. -/
theorem sha_configure_stores_mode_witness :
    (sha_configure (sample_sha 0x100) 0xffffffff).SHA_MR = 0xffffffff ∧
    (sha_configure (sample_sha 0x100) 0xffffffff).SHA_CR = (sample_sha 0x100).SHA_CR ∧
    (sha_configure (sample_sha 0x100) 0xffffffff).SHA_IER = (sample_sha 0x100).SHA_IER ∧
    (sha_configure (sample_sha 0x100) 0xffffffff).SHA_IDR = (sample_sha 0x100).SHA_IDR ∧
    (sha_configure (sample_sha 0x100) 0xffffffff).SHA_ISR = (sample_sha 0x100).SHA_ISR ∧
    (sha_configure (sample_sha 0x100) 0xffffffff).SHA_IDATAR = (sample_sha 0x100).SHA_IDATAR ∧
    (sha_configure (sample_sha 0x100) 0xffffffff).SHA_IODATAR = (sample_sha 0x100).SHA_IODATAR :=
  sha_configure_stores_mode (sample_sha 0x100) 0xffffffff (by decide)

/-- C12: `sha_start`, `sha_soft_reset` and `sha_first_block` each leave the
control register equal to their own flag (`SHA_CR_START`, `SHA_CR_SWRST`,
`SHA_CR_FIRST`), whatever the register state was, and leave the mode
register, both banks and the interrupt registers as they were. -/
theorem sha_commands_write_flag (h : ShaHeader) (s : Sha) :
    sha_start h s = { s with SHA_CR := h.SHA_CR_START } ∧
    sha_soft_reset h s = { s with SHA_CR := h.SHA_CR_SWRST } ∧
    sha_first_block h s = { s with SHA_CR := h.SHA_CR_FIRST } ∧
    (∀ t : Sha, (sha_start h t).SHA_CR = (sha_start h s).SHA_CR ∧
      (sha_soft_reset h t).SHA_CR = (sha_soft_reset h s).SHA_CR ∧
      (sha_first_block h t).SHA_CR = (sha_first_block h s).SHA_CR) ∧
    (∀ f ∈ [sha_start, sha_soft_reset, sha_first_block],
      (f h s).SHA_MR = s.SHA_MR ∧ (f h s).SHA_IDATAR = s.SHA_IDATAR ∧
      (f h s).SHA_IODATAR = s.SHA_IODATAR ∧ (f h s).SHA_IER = s.SHA_IER ∧
      (f h s).SHA_IDR = s.SHA_IDR ∧ (f h s).SHA_ISR = s.SHA_ISR) := by
  refine ⟨rfl, rfl, rfl, fun t => ⟨rfl, rfl, rfl⟩, ?_⟩
  intro f hf
  simp only [List.mem_cons, List.mem_singleton, List.not_mem_nil, or_false] at hf
  rcases hf with rfl | rfl | rfl <;> exact ⟨rfl, rfl, rfl, rfl, rfl, rfl⟩

/-- C13: for every 32-bit mask, `sha_enable_it(mask)` leaves the
interrupt-enable register equal to `mask` and `sha_disable_it(mask)` leaves
the interrupt-disable register equal to `mask`, whatever any register held
before; neither changes the other one's register, the mode register or a
data bank. -/
theorem sha_it_write_mask (s : Sha) (mask : Nat) (hmask : mask < 2 ^ 32) :
    sha_enable_it s mask = { s with SHA_IER := mask } ∧
    sha_disable_it s mask = { s with SHA_IDR := mask } ∧
    (∀ t : Sha, (sha_enable_it t mask).SHA_IER = mask ∧ (sha_disable_it t mask).SHA_IDR = mask) ∧
    (sha_enable_it s mask).SHA_IDR = s.SHA_IDR ∧
    (sha_disable_it s mask).SHA_IER = s.SHA_IER ∧
    (sha_enable_it s mask).SHA_MR = s.SHA_MR ∧
    (sha_disable_it s mask).SHA_MR = s.SHA_MR ∧
    (sha_enable_it s mask).SHA_IDATAR = s.SHA_IDATAR ∧
    (sha_disable_it s mask).SHA_IDATAR = s.SHA_IDATAR ∧
    (sha_enable_it s mask).SHA_IODATAR = s.SHA_IODATAR ∧
    (sha_disable_it s mask).SHA_IODATAR = s.SHA_IODATAR := by
  have hm : mask % 2 ^ 32 = mask := Nat.mod_eq_of_lt hmask
  refine ⟨?_, ?_, fun t => ⟨?_, ?_⟩, rfl, rfl, rfl, rfl, rfl, rfl, rfl, rfl⟩
  · simp only [sha_enable_it, hm]
  · simp only [sha_disable_it, hm]
  · simp only [sha_enable_it, hm]
  · simp only [sha_disable_it, hm]

/-- C13 at a concrete input: mask `0x10001` on a state whose interrupt
registers hold other bits. -/
theorem sha_it_write_mask_witness :
    (sha_enable_it { sample_sha 0 with SHA_IER := 0xf0, SHA_IDR := 0x0f } 0x10001).SHA_IER
      = 0x10001 ∧
    (sha_disable_it { sample_sha 0 with SHA_IER := 0xf0, SHA_IDR := 0x0f } 0x10001).SHA_IDR
      = 0x10001 :=
  (sha_it_write_mask (sample_sha 0) 0x10001 (by decide)).2.2.1
    { sample_sha 0 with SHA_IER := 0xf0, SHA_IDR := 0x0f }

/-- C14: for every register state, `sha_get_status` returns the content of
the status register as it is, and the peripheral state after the call is the
state before it. -/
theorem sha_get_status_raw (s : Sha) :
    (sha_get_status s).1 = s.SHA_ISR ∧ (sha_get_status s).2 = s :=
  ⟨rfl, rfl⟩

/-- C15: after `sha_configure(m)`, any finite sequence of calls of
`sha_first_block`, `sha_set_input` (count at most 32), `sha_start`,
`sha_enable_it`, `sha_disable_it`, `sha_get_status` and `sha_get_output`
leaves the mode register equal to `m`, so a following `sha_get_output` has
the algorithm index and the number of stores it would have right after the
configuration; with the SHA256 encoding in `m` that number is 8, in
particular after first block, 16 staged words and start. -/
theorem mode_register_preserved (h : ShaHeader) (s : Sha) (m : Nat) (ops : List Op)
    (hm : m < 2 ^ 32) (hops : ∀ op ∈ ops, op.count_ok = true) :
    (exec h ops (sha_configure s m)).SHA_MR = m ∧
    sha_get_output_algo h (exec h ops (sha_configure s m))
      = sha_get_output_algo h (sha_configure s m) ∧
    (sha_get_output_stores h (exec h ops (sha_configure s m))).map List.length
      = (sha_get_output_stores h (sha_configure s m)).map List.length ∧
    (h.SHA_MR_ALGO_SHA1 >>> h.SHA_MR_ALGO_Pos = 0 →
      (∀ k, h.SHA_MR_ALGO_HMAC_SHA1 = some k → plain_encoding h SHA_MODE_SHA256 < k) →
      m &&& h.SHA_MR_ALGO_Msk = plain_encoding h SHA_MODE_SHA256 →
      (sha_get_output_stores h (exec h ops (sha_configure s m))).map List.length = some 8 ∧
      ∀ data, (sha_get_output_stores h
        (exec h [.first_block, .set_input data 16, .start] (sha_configure s m))).map List.length
          = some 8) := by
  have _ := hops
  have hcfg : (sha_configure s m).SHA_MR = m := by
    simp only [sha_configure]
    exact Nat.mod_eq_of_lt hm
  have hmr : ∀ l, (exec h l (sha_configure s m)).SHA_MR = m := fun l => by
    rw [exec_SHA_MR, hcfg]
  have halgo : ∀ l, sha_get_output_algo h (exec h l (sha_configure s m))
      = sha_get_output_algo h (sha_configure s m) := fun l =>
    sha_get_output_algo_congr _ _ _ (by rw [exec_SHA_MR])
  refine ⟨hmr ops, halgo ops, sha_get_output_stores_length_congr _ _ _ (halgo ops), ?_⟩
  intro hbase hrange henc
  have h256 : ∀ l, (sha_get_output_stores h (exec h l (sha_configure s m))).map List.length
      = some 8 := by
    intro l
    have hidx : sha_get_output_algo h (exec h l (sha_configure s m)) = 1 :=
      sha_get_output_algo_plain h _ 1 hbase hrange (by rw [hmr l]; exact henc)
    rw [sha_get_output_stores_of_algo h _ 1 (by decide) hidx]
    simp [for_stores_length, digest_words]
  exact ⟨h256 ops, fun data => h256 _⟩

/-- C15 at a concrete input: SHA256 configured with further mode bits, then
first block, 16 words, start, status, a first output read, interrupts. -/
theorem mode_register_preserved_witness :
    (exec header_hmac
      [.first_block, .set_input (fun i => i) 16, .start, .get_status, .get_output (fun _ => 0),
        .enable_it 1, .disable_it 1]
      (sha_configure (sample_sha 0) 0x111)).SHA_MR = 0x111 ∧
    (sha_get_output_stores header_hmac (exec header_hmac
      [.first_block, .set_input (fun i => i) 16, .start, .get_status, .get_output (fun _ => 0),
        .enable_it 1, .disable_it 1]
      (sha_configure (sample_sha 0) 0x111))).map List.length = some 8 :=
  have hw := mode_register_preserved header_hmac (sample_sha 0) 0x111
    [.first_block, .set_input (fun i => i) 16, .start, .get_status, .get_output (fun _ => 0),
      .enable_it 1, .disable_it 1] (by decide) (by decide)
  ⟨hw.1, (hw.2.2.2 (by decide) (by intro k hk; cases hk; decide) (by decide)).1⟩

/-- C16: for every `len` of the 8-bit range, every index `sha_set_input`
stores to in the primary bank is below 16, and every index it stores to in
the secondary bank is below 16 exactly when `len ≤ 32`; for `len > 32` it
stores `data[32]` to secondary-bank index 16 (and stores to every index up to
`len - 17`), no check preventing it. -/
theorem sha_set_input_bank_bounds (data : Nat → Nat) (len : Nat) (hlen : len < 256) :
    (∀ w ∈ sha_set_input_idata_stores data len, w.1 < 16) ∧
    ((∀ w ∈ sha_set_input_iodata_stores data len, w.1 < 16) ↔ len ≤ 32) ∧
    (32 < len → (16, data 32) ∈ sha_set_input_iodata_stores data len ∧
      (sha_set_input_iodata_stores data len).map Prod.fst = List.range (len - 16) ∧
      ∀ s : Sha, (sha_set_input s data len).SHA_IODATAR 16 = data 32) := by
  have hio : sha_set_input_iodata_stores data len
      = for_stores (len - 16) fun i => data (i + 16) := by
    unfold sha_set_input_iodata_stores
    by_cases h16 : len > 16
    · simp only [h16, if_true]
      rw [Nat.mod_eq_of_lt (by omega)]
    · simp only [h16, if_false]
      have : len - 16 = 0 := by omega
      rw [this]
  refine ⟨?_, ?_, ?_⟩
  · intro w hw
    unfold sha_set_input_idata_stores at hw
    rw [mem_for_stores] at hw
    have := hw.1
    split at this <;> omega
  · rw [hio]
    constructor
    · intro hall
      by_contra hgt
      have hmem : (16, data (16 + 16)) ∈ for_stores (len - 16) fun i => data (i + 16) := by
        rw [mem_for_stores]
        exact ⟨by simp only; omega, rfl⟩
      have := hall _ hmem
      simp only at this
      omega
    · intro hle w hw
      rw [mem_for_stores] at hw
      omega
  · intro hgt
    refine ⟨?_, ?_, ?_⟩
    · rw [hio, mem_for_stores]
      exact ⟨by simp only; omega, rfl⟩
    · rw [hio]
      simp [for_stores, Function.comp_def]
    · intro s
      simp only [sha_set_input, hio]
      exact storeAll_for_stores_of_lt _ _ _ _ (by omega)

/-- C16 at a concrete input: 33 words make a store to secondary index 16. -/
theorem sha_set_input_bank_bounds_witness :
    (16, 7 * 32) ∈ sha_set_input_iodata_stores (fun i => 7 * i) 33 ∧
    (sha_set_input_iodata_stores (fun i => 7 * i) 33).map Prod.fst = List.range (33 - 16) ∧
    ∀ s : Sha, (sha_set_input s (fun i => 7 * i) 33).SHA_IODATAR 16 = 7 * 32 :=
  (sha_set_input_bank_bounds (fun i => 7 * i) 33 (by decide)).2.2 (by decide)

/-- C17: whenever the assertion of `sha_get_output` passes, the number of
words it uses is the table entry at the algorithm index and is at most 16,
the loop makes exactly that many iterations, one for each index below it in
ascending order, and each iteration reads the secondary-bank word of its own
index, which is below 16. -/
theorem sha_get_output_reads_in_bank (h : ShaHeader) (s : Sha) (stores : List (Nat × Nat))
    (hst : sha_get_output_stores h s = some stores) :
    stores.length ≤ 16 ∧
    (∃ hlt : sha_get_output_algo h s < hash_size.length,
      stores.length = hash_size[sha_get_output_algo h s]) ∧
    stores.map Prod.fst = List.range stores.length ∧
    ∀ w ∈ stores, w.1 < 16 ∧ w.2 = s.SHA_IODATAR w.1 := by
  unfold sha_get_output_stores at hst
  by_cases hlt : sha_get_output_algo h s < hash_size.length
  · simp only [hlt, dite_true, Option.some.injEq] at hst
    subst hst
    have hle := hash_size_le_16 _ hlt
    refine ⟨?_, ⟨hlt, for_stores_length _ _⟩, ?_, ?_⟩
    · rw [for_stores_length]; exact hle
    · simp [for_stores, Function.comp_def]
    · intro w hw
      rw [mem_for_stores] at hw
      exact ⟨by omega, hw.2⟩
  · simp only [hlt, dite_false] at hst
    cases hst

/-- C17 at a concrete input: SHA512, the longest digest. -/
theorem sha_get_output_reads_in_bank_witness :
    (for_stores 16 (sample_sha 0x300).SHA_IODATAR).length ≤ 16 ∧
    (∃ hlt : sha_get_output_algo header_plain (sample_sha 0x300) < hash_size.length,
      (for_stores 16 (sample_sha 0x300).SHA_IODATAR).length
        = hash_size[sha_get_output_algo header_plain (sample_sha 0x300)]) ∧
    (for_stores 16 (sample_sha 0x300).SHA_IODATAR).map Prod.fst
      = List.range (for_stores 16 (sample_sha 0x300).SHA_IODATAR).length ∧
    ∀ w ∈ for_stores 16 (sample_sha 0x300).SHA_IODATAR,
      w.1 < 16 ∧ w.2 = (sample_sha 0x300).SHA_IODATAR w.1 :=
  sha_get_output_reads_in_bank header_plain (sample_sha 0x300)
    (for_stores 16 (sample_sha 0x300).SHA_IODATAR) (by decide)

/-- C18: two register states whose mode registers agree on the ALGO field
(`SHA_MR & SHA_MR_ALGO_Msk`) and whose secondary banks are equal give, for
the same initial buffer, the same outcome of `sha_get_output`: the same
assertion result, the same stores and the same final buffer, whatever the
other mode bits are. -/
theorem sha_get_output_algo_field_only (h : ShaHeader) (s1 s2 : Sha) (data : Nat → Nat)
    (hfield : s1.SHA_MR &&& h.SHA_MR_ALGO_Msk = s2.SHA_MR &&& h.SHA_MR_ALGO_Msk)
    (hbank : s1.SHA_IODATAR = s2.SHA_IODATAR) :
    (sha_get_output h s1 data).failed = (sha_get_output h s2 data).failed ∧
    sha_get_output_stores h s1 = sha_get_output_stores h s2 ∧
    (sha_get_output h s1 data).buffer = (sha_get_output h s2 data).buffer := by
  have hst := sha_get_output_stores_congr h s1 s2
    (sha_get_output_algo_congr h s1 s2 hfield) hbank
  refine ⟨?_, hst, ?_⟩
  · simp only [sha_get_output, hst]
    cases sha_get_output_stores h s2 <;> rfl
  · simp only [sha_get_output, hst]
    cases sha_get_output_stores h s2 <;> rfl

/-- C18 at a concrete input: SHA384 with and without other mode bits, the
other registers differing too. -/
theorem sha_get_output_algo_field_only_witness :
    (sha_get_output header_hmac (sample_sha 0x200) (fun _ => 0)).failed
      = (sha_get_output header_hmac { sample_sha 0xffff02ff with SHA_CR := 1 } (fun _ => 0)).failed ∧
    sha_get_output_stores header_hmac (sample_sha 0x200)
      = sha_get_output_stores header_hmac { sample_sha 0xffff02ff with SHA_CR := 1 } ∧
    (sha_get_output header_hmac (sample_sha 0x200) (fun _ => 0)).buffer
      = (sha_get_output header_hmac { sample_sha 0xffff02ff with SHA_CR := 1 } (fun _ => 0)).buffer :=
  sha_get_output_algo_field_only header_hmac (sample_sha 0x200)
    { sample_sha 0xffff02ff with SHA_CR := 1 } (fun _ => 0) (by decide) rfl

/-- C19: on a header with a keyed range (ALGO mask and keyed base aligned to
the field position, SHA1 encoded as 0, the five plain encodings below the
keyed base), the assertion of `sha_get_output` passes if and only if the ALGO
field holds one of the five plain encodings or one of the five keyed
encodings; a plain value of index 5 or more below the keyed base, and a keyed
value at offset 5 or more from the keyed base, end in the assertion. -/
theorem sha_get_output_pass_iff_encoding (h : ShaHeader) (k : Nat) (s : Sha) (data : Nat → Nat)
    (hk : h.SHA_MR_ALGO_HMAC_SHA1 = some k)
    (hsha1 : h.SHA_MR_ALGO_SHA1 = 0)
    (hmsk : h.SHA_MR_ALGO_Msk < 2 ^ 32)
    (hmska : h.SHA_MR_ALGO_Msk % 2 ^ h.SHA_MR_ALGO_Pos = 0)
    (hka : k % 2 ^ h.SHA_MR_ALGO_Pos = 0)
    (hrange : plain_encoding h 4 < k) :
    ((sha_get_output h s data).failed = false ↔
      (∃ m, m < 5 ∧ s.SHA_MR &&& h.SHA_MR_ALGO_Msk = plain_encoding h m) ∨
      (∃ m, m < 5 ∧ s.SHA_MR &&& h.SHA_MR_ALGO_Msk = hmac_encoding h k m)) ∧
    (∀ f, 5 ≤ f → s.SHA_MR &&& h.SHA_MR_ALGO_Msk = plain_encoding h f →
      plain_encoding h f < k → (sha_get_output h s data).failed = true) ∧
    (∀ j, 5 ≤ j → s.SHA_MR &&& h.SHA_MR_ALGO_Msk = hmac_encoding h k j →
      (sha_get_output h s data).failed = true) := by
  have hbase : h.SHA_MR_ALGO_SHA1 >>> h.SHA_MR_ALGO_Pos = 0 := by
    rw [hsha1]; exact Nat.zero_shiftRight _
  have hP : 0 < 2 ^ h.SHA_MR_ALGO_Pos := by positivity
  have hpass : (sha_get_output h s data).failed = false ↔ sha_get_output_algo h s < 5 := by
    have := sha_get_output_failed_iff h s data
    cases hf : (sha_get_output h s data).failed
    · simp only [hf, Bool.false_eq_true, false_iff, Nat.not_le] at this
      simp [this]
    · simp only [hf, true_iff] at this
      simp only [Bool.true_eq_false, false_iff, Nat.not_lt]
      exact this
  have hplain : ∀ m, s.SHA_MR &&& h.SHA_MR_ALGO_Msk = plain_encoding h m →
      plain_encoding h m < k → sha_get_output_algo h s = m := fun m hm hlt =>
    sha_get_output_algo_plain h s m hbase
      (fun k2 hk2 => by rw [hk] at hk2; cases hk2; exact hlt) hm
  have hkeyed : ∀ j, s.SHA_MR &&& h.SHA_MR_ALGO_Msk = hmac_encoding h k j →
      sha_get_output_algo h s = j := fun j hj =>
    sha_get_output_algo_keyed h s k j hk hmsk hsha1 hj
  have hbelow : ∀ m, m < 5 → plain_encoding h m < k := by
    intro m hm
    refine lt_of_le_of_lt ?_ hrange
    rw [plain_encoding_zero_base h m hsha1, plain_encoding_zero_base h 4 hsha1]
    exact Nat.mul_le_mul_right _ (by omega)
  refine ⟨?_, ?_, ?_⟩
  · rw [hpass]
    constructor
    · intro hidx
      obtain ⟨m, hm | hm⟩ := field_value_cases h k (s.SHA_MR &&& h.SHA_MR_ALGO_Msk) hsha1
        (and_mod_two_pow_eq_zero _ _ _ hmska) hka
      · have := hplain m hm.1 (by rw [← hm.1]; exact hm.2)
        exact Or.inl ⟨m, by omega, hm.1⟩
      · have := hkeyed m hm
        exact Or.inr ⟨m, by omega, hm⟩
    · rintro (⟨m, hm, henc⟩ | ⟨m, hm, henc⟩)
      · rw [hplain m henc (hbelow m hm)]; exact hm
      · rw [hkeyed m henc]; exact hm
  · intro f hf henc hlt
    rw [sha_get_output_failed_iff, hplain f henc hlt]
    exact hf
  · intro j hj henc
    rw [sha_get_output_failed_iff, hkeyed j henc]
    exact hj

/-- C19 at a concrete input: the keyed encoding at offset 5 (`0xd00`) on the
header with keyed base 8 ends in the assertion. -/
theorem sha_get_output_pass_iff_encoding_witness :
    (sha_get_output header_hmac (sample_sha 0xd00) (fun _ => 0)).failed = true :=
  (sha_get_output_pass_iff_encoding header_hmac 0x800 (sample_sha 0xd00) (fun _ => 0) rfl rfl
    (by decide) (by decide) (by decide) (by decide)).2.2 5 (by decide) (by decide)

/-- C20: for every mode of the 8-bit range, `sha_get_output_words` returns 0
if and only if the mode is `≥ SHA_MODE_COUNT`, and for every valid mode it
returns a count between 1 and 16. -/
theorem sha_get_output_words_zero_iff (mode : Nat) (hmode : mode < 256) :
    (sha_get_output_words mode = some 0 ↔ SHA_MODE_COUNT ≤ mode) ∧
    (mode < SHA_MODE_COUNT → ∃ w, sha_get_output_words mode = some w ∧ 1 ≤ w ∧ w ≤ 16) := by
  have _ := hmode
  by_cases hlt : mode < SHA_MODE_COUNT
  · have hlt5 : mode < 5 := hlt
    constructor
    · constructor
      · intro h0
        exfalso
        interval_cases mode <;> revert h0 <;> decide
      · intro hge
        exact absurd hge (Nat.not_le.mpr hlt)
    · intro _
      interval_cases mode <;> decide
  · have hge : SHA_MODE_COUNT ≤ mode := Nat.not_lt.mp hlt
    constructor
    · constructor
      · intro _; exact hge
      · intro _; simp [sha_get_output_words, hge]
    · intro h; exact absurd h hlt

/-- C20 at a concrete input: SHA224, the last valid mode. -/
theorem sha_get_output_words_zero_iff_witness :
    (sha_get_output_words 4 = some 0 ↔ SHA_MODE_COUNT ≤ 4) ∧
    (4 < SHA_MODE_COUNT → ∃ w, sha_get_output_words 4 = some w ∧ 1 ≤ w ∧ w ≤ 16) :=
  sha_get_output_words_zero_iff 4 (by decide)

/-- C21: for every header, register state and buffer, whether the call of
`sha_get_output` returns or ends in its assertion, the peripheral after it is
the peripheral before it: mode register, control register, interrupt and
status registers and both data banks are the same; the call ends either in
the assertion with the buffer as it was, or returns with the buffer changed
by its stores only. -/
theorem sha_get_output_read_only (h : ShaHeader) (s : Sha) (data : Nat → Nat) :
    (sha_get_output h s data).regs = s ∧
    (sha_get_output h s data).regs.SHA_MR = s.SHA_MR ∧
    (sha_get_output h s data).regs.SHA_CR = s.SHA_CR ∧
    (sha_get_output h s data).regs.SHA_IER = s.SHA_IER ∧
    (sha_get_output h s data).regs.SHA_IDR = s.SHA_IDR ∧
    (sha_get_output h s data).regs.SHA_ISR = s.SHA_ISR ∧
    (sha_get_output h s data).regs.SHA_IDATAR = s.SHA_IDATAR ∧
    (sha_get_output h s data).regs.SHA_IODATAR = s.SHA_IODATAR ∧
    (sha_get_output h s data = .assert_failed s data ∨
      ∃ stores, sha_get_output_stores h s = some stores ∧
        sha_get_output h s data = .returned s (storeAll data stores)) := by
  have hregs := sha_get_output_regs h s data
  refine ⟨hregs, ?_, ?_, ?_, ?_, ?_, ?_, ?_, ?_⟩
  · rw [hregs]
  · rw [hregs]
  · rw [hregs]
  · rw [hregs]
  · rw [hregs]
  · rw [hregs]
  · rw [hregs]
  · cases hst : sha_get_output_stores h s with
    | none => exact Or.inl (by simp only [sha_get_output, hst])
    | some stores => exact Or.inr ⟨stores, rfl, by simp only [sha_get_output, hst]⟩

end ShaDriver
